import Mathlib

/-!
Verification of the document-assembly engine of `cmd/protoc-gen-docs`
(`htmlGenerator.go`).  The Go functions relevant to the claims are embedded
shallowly: strings become `List Char`, the mutable line array of the comment
pipeline becomes explicit state passing, and the recursions whose termination
the Go code leaves to a dedup check are given an explicit fuel argument
(returning `none` when the fuel runs out, which models divergence).
-/

set_option maxRecDepth 8192

abbrev Str := List Char

/-- Convert a literal to the character-list representation used throughout. -/
def toChars (s : String) : Str := s.toList

/-! ## Per-package rendering-mode resolution (`generateOutput`, lines 167-178)

`protomodel.Mode` has four values; the loop scans the `Matter.Mode` of every
file of the package and either settles on a package mode or fails. -/

inductive GMode where
  | unset
  | fileM
  | pkgM
  | noneM
deriving DecidableEq, Repr

/-- One step of the mode loop in `generateOutput`: given the mode accumulated
so far and the `Matter.Mode` of the next file, either update the mode or
signal the fatal configuration error (carrying the two conflicting modes). -/
def modeStep (m fm : GMode) : Except (GMode × GMode) GMode :=
  if m = GMode.unset then Except.ok fm
  else if m = GMode.noneM ∧ fm ≠ GMode.unset then Except.ok fm
  else if fm ≠ GMode.unset ∧ fm ≠ m ∧ fm ≠ GMode.noneM then Except.error (m, fm)
  else Except.ok m

/-- The mode loop of `generateOutput` over the `Matter.Mode` values of the
package's files, from an accumulated mode `m`; an error aborts the run. -/
def resolveModesFrom (m : GMode) : List GMode → Except (GMode × GMode) GMode
  | [] => Except.ok m
  | fm :: rest =>
    match modeStep m fm with
    | Except.error e => Except.error e
    | Except.ok m' => resolveModesFrom m' rest

/-- Package-mode resolution as `generateOutput` performs it, starting from
`ModeUnset`. -/
def resolveModes (ms : List GMode) : Except (GMode × GMode) GMode :=
  resolveModesFrom GMode.unset ms

/-- Whether the resolution ended in the fatal configuration error. -/
def isModeErr (r : Except (GMode × GMode) GMode) : Bool :=
  match r with
  | Except.error _ => true
  | Except.ok _ => false

/-- Modelled from the claim's words: one step of the "package Mode so far"
evolution — the first explicitly declared mode sets it, and a later explicit
mode replaces a Suppressed (`ModeNone`) mode. -/
def modeNext (m fm : GMode) : GMode :=
  if m = GMode.unset then fm
  else if m = GMode.noneM ∧ fm ≠ GMode.unset then fm
  else m

/-- The "package Mode so far" after a list of files, starting from `m`. -/
def pkgModeUptoFrom (m : GMode) : List GMode → GMode
  | [] => m
  | fm :: rest => pkgModeUptoFrom (modeNext m fm) rest

/-- The "package Mode so far" after a list of files. -/
def pkgModeUpto (ms : List GMode) : GMode := pkgModeUptoFrom GMode.unset ms

/-- The conflict condition of one step, as a Boolean. -/
def modeErrCond (m fm : GMode) : Bool :=
  m ≠ GMode.unset ∧ m ≠ GMode.noneM ∧ fm ≠ GMode.unset ∧ fm ≠ GMode.noneM ∧ fm ≠ m

/-- Modelled from the claim's words: some later file explicitly declares a
mode different from the package mode so far, the package mode so far being
explicit and not Suppressed. -/
def claimC3cond (ms : List GMode) : Prop :=
  ∃ p fm q, ms = p ++ fm :: q ∧ fm ≠ GMode.unset ∧
    pkgModeUpto p ≠ GMode.unset ∧ pkgModeUpto p ≠ GMode.noneM ∧ fm ≠ pkgModeUpto p

/-- The amended conflict condition: additionally, a later file declaring
Suppressed (`ModeNone`) never conflicts. -/
def amendedC3cond (ms : List GMode) : Prop :=
  ∃ p fm q, ms = p ++ fm :: q ∧ fm ≠ GMode.unset ∧ fm ≠ GMode.noneM ∧
    pkgModeUpto p ≠ GMode.unset ∧ pkgModeUpto p ≠ GMode.noneM ∧ fm ≠ pkgModeUpto p

theorem modeStep_eq (m fm : GMode) :
    modeStep m fm =
      if modeErrCond m fm then Except.error (m, fm) else Except.ok (modeNext m fm) := by
  cases m <;> cases fm <;> rfl

theorem resolveModesFrom_err_iff (ms : List GMode) : ∀ m : GMode,
    isModeErr (resolveModesFrom m ms) = true ↔
      ∃ p fm q, ms = p ++ fm :: q ∧ fm ≠ GMode.unset ∧ fm ≠ GMode.noneM ∧
        pkgModeUptoFrom m p ≠ GMode.unset ∧ pkgModeUptoFrom m p ≠ GMode.noneM ∧
        fm ≠ pkgModeUptoFrom m p := by
  induction ms with
  | nil =>
    intro m
    simp [resolveModesFrom, isModeErr]
  | cons fm0 rest ih =>
    intro m
    rw [show resolveModesFrom m (fm0 :: rest) =
      (match modeStep m fm0 with
       | Except.error e => Except.error e
       | Except.ok m' => resolveModesFrom m' rest) from rfl]
    rw [modeStep_eq]
    by_cases hc : modeErrCond m fm0 = true
    · rw [if_pos hc]
      simp only [isModeErr, true_iff]
      have hc' : m ≠ GMode.unset ∧ m ≠ GMode.noneM ∧ fm0 ≠ GMode.unset ∧
          fm0 ≠ GMode.noneM ∧ fm0 ≠ m := by
        simpa [modeErrCond] using hc
      exact ⟨[], fm0, rest, rfl, hc'.2.2.1, hc'.2.2.2.1, hc'.1, hc'.2.1,
        hc'.2.2.2.2⟩
    · rw [if_neg hc]
      simp only []
      rw [ih (modeNext m fm0)]
      constructor
      · rintro ⟨p, fm, q, hsplit, h1, h2, h3, h4, h5⟩
        exact ⟨fm0 :: p, fm, q, by rw [hsplit]; exact rfl, h1, h2, h3, h4, h5⟩
      · rintro ⟨p, fm, q, hsplit, h1, h2, h3, h4, h5⟩
        cases p with
        | nil =>
          simp only [List.nil_append, List.cons.injEq] at hsplit
          obtain ⟨hfm0, hrest⟩ := hsplit
          subst hfm0
          exfalso
          apply hc
          simp only [pkgModeUptoFrom] at h3 h4 h5
          simp [modeErrCond]
          refine ⟨h3, h4, h1, h2, h5⟩
        | cons p0 ptail =>
          simp only [List.cons_append, List.cons.injEq] at hsplit
          obtain ⟨hp0, hrest⟩ := hsplit
          subst hp0
          exact ⟨ptail, fm, q, hrest, h1, h2, by
            simpa [pkgModeUptoFrom] using h3, by
            simpa [pkgModeUptoFrom] using h4, by
            simpa [pkgModeUptoFrom] using h5⟩

theorem resolveModesFrom_ok (ms : List GMode) : ∀ m r : GMode,
    resolveModesFrom m ms = Except.ok r → r = pkgModeUptoFrom m ms := by
  induction ms with
  | nil =>
    intro m r h
    simp only [resolveModesFrom] at h
    injection h with h'
    simp [pkgModeUptoFrom, h']
  | cons fm0 rest ih =>
    intro m r h
    rw [show resolveModesFrom m (fm0 :: rest) =
      (match modeStep m fm0 with
       | Except.error e => Except.error e
       | Except.ok m' => resolveModesFrom m' rest) from rfl] at h
    rw [modeStep_eq] at h
    by_cases hc : modeErrCond m fm0 = true
    · rw [if_pos hc] at h
      exact absurd h (by simp)
    · rw [if_neg hc] at h
      simp only [] at h
      simp only [pkgModeUptoFrom]
      exact ih (modeNext m fm0) r h

/-- C3 (counterexample): in a package whose first file declares `ModeFile` and
whose second explicitly declares `ModeNone`, the claim's error condition holds
(a later explicit mode differs from the non-Suppressed package mode so far),
yet `generateOutput` resolves the package mode to `ModeFile` without error. -/
theorem c3_counterexample :
    claimC3cond [GMode.fileM, GMode.noneM] ∧
      resolveModes [GMode.fileM, GMode.noneM] = Except.ok GMode.fileM := by
  constructor
  · exact ⟨[GMode.fileM], GMode.noneM, [], rfl, by decide, by decide, by decide,
      by decide⟩
  · rfl

/-- C3 (amended): per-package mode resolution returns the fatal error iff some
later file explicitly declares a mode that is neither Suppressed (`ModeNone`)
nor equal to the package mode so far, while the package mode so far is
explicit and not Suppressed; and when no error occurs the package mode is the
first file's explicitly declared mode as evolved by the Suppressed-override
rule. -/
theorem c3_mode_resolution (ms : List GMode) :
    (isModeErr (resolveModes ms) = true ↔ amendedC3cond ms) ∧
      (∀ r, resolveModes ms = Except.ok r → r = pkgModeUpto ms) := by
  constructor
  · rw [show resolveModes ms = resolveModesFrom GMode.unset ms from rfl,
      resolveModesFrom_err_iff]
    unfold amendedC3cond pkgModeUpto
    tauto
  · intro r h
    exact resolveModesFrom_ok ms GMode.unset r h

/-- C3 (witness for the amended theorem): applied to a package whose first
file opts out (`ModeNone`) and whose second declares `ModeFile`. -/
theorem c3_witness :
    resolveModes [GMode.noneM, GMode.fileM] = Except.ok GMode.fileM ∧
      GMode.fileM = pkgModeUpto [GMode.noneM, GMode.fileM] :=
  ⟨rfl, (c3_mode_resolution [GMode.noneM, GMode.fileM]).2 GMode.fileM rfl⟩

/-! ## `"Required. "` and `"Optional. "` stripping (`generateComment`, lines 873-877)

The Go code applies `regexp.MustCompile("^Required. ")` and then
`regexp.MustCompile("^Optional. ")` with `ReplaceAllString(line, "")`.  The
unescaped `.` is a regex metacharacter matching any character other than a
newline, and the `^` anchor restricts the replacement to the start of the
line. -/

/-- Whether the Go regex `^Required. ` matches at the start of the line:
eight literal characters, one arbitrary non-newline character, one space. -/
def reMatchReq (l : Str) : Bool :=
  List.isPrefixOf (toChars "Required") l &&
    (match l.get? 8 with
     | some c => decide (c ≠ '\n')
     | none => false) &&
    decide (l.get? 9 = some ' ')

/-- Whether the Go regex `^Optional. ` matches at the start of the line. -/
def reMatchOpt (l : Str) : Bool :=
  List.isPrefixOf (toChars "Optional") l &&
    (match l.get? 8 with
     | some c => decide (c ≠ '\n')
     | none => false) &&
    decide (l.get? 9 = some ' ')

/-- `ReplaceAllString` of `^Required. ` by the empty string. -/
def stripReq (l : Str) : Str := if reMatchReq l then l.drop 10 else l

/-- `ReplaceAllString` of `^Optional. ` by the empty string. -/
def stripOpt (l : Str) : Str := if reMatchOpt l then l.drop 10 else l

/-- The per-line prefix-stripping step exactly as `generateComment` performs
it: the `Required` regex is applied first, then the `Optional` regex on the
result. -/
def stripRO (l : Str) : Str := stripOpt (stripReq l)

/-- Modelled from the amended claim's words: the line's first eight
characters spell `Required`, the ninth is any character other than a newline,
and the tenth is a space. -/
def specReqPat (l : Str) : Prop :=
  l.take 8 = toChars "Required" ∧
    (∃ c, l.get? 8 = some c ∧ c ≠ '\n') ∧ l.get? 9 = some ' '

/-- Modelled from the amended claim's words, for `Optional`. -/
def specOptPat (l : Str) : Prop :=
  l.take 8 = toChars "Optional" ∧
    (∃ c, l.get? 8 = some c ∧ c ≠ '\n') ∧ l.get? 9 = some ' '

theorem reMatchReq_iff (l : Str) : reMatchReq l = true ↔ specReqPat l := by
  unfold reMatchReq specReqPat
  rw [Bool.and_eq_true, Bool.and_eq_true]
  have hpre : List.isPrefixOf (toChars "Required") l = true ↔
      l.take 8 = toChars "Required" := by
    rw [List.isPrefixOf_iff_prefix]
    constructor
    · intro h
      have := List.prefix_iff_eq_take.mp h
      simpa [toChars] using this.symm
    · intro h
      apply List.prefix_iff_eq_take.mpr
      simpa [toChars] using h.symm
  constructor
  · rintro ⟨⟨h1, h2⟩, h3⟩
    refine ⟨hpre.mp h1, ?_, by simpa using h3⟩
    cases hg : l.get? 8 with
    | none => rw [hg] at h2; exact absurd h2 (by simp)
    | some c =>
      rw [hg] at h2
      exact ⟨c, rfl, by simpa using h2⟩
  · rintro ⟨h1, ⟨c, hc, hcn⟩, h3⟩
    refine ⟨⟨hpre.mpr h1, ?_⟩, by simpa using h3⟩
    rw [hc]
    simpa using hcn

theorem reMatchOpt_iff (l : Str) : reMatchOpt l = true ↔ specOptPat l := by
  unfold reMatchOpt specOptPat
  rw [Bool.and_eq_true, Bool.and_eq_true]
  have hpre : List.isPrefixOf (toChars "Optional") l = true ↔
      l.take 8 = toChars "Optional" := by
    rw [List.isPrefixOf_iff_prefix]
    constructor
    · intro h
      have := List.prefix_iff_eq_take.mp h
      simpa [toChars] using this.symm
    · intro h
      apply List.prefix_iff_eq_take.mpr
      simpa [toChars] using h.symm
  constructor
  · rintro ⟨⟨h1, h2⟩, h3⟩
    refine ⟨hpre.mp h1, ?_, by simpa using h3⟩
    cases hg : l.get? 8 with
    | none => rw [hg] at h2; exact absurd h2 (by simp)
    | some c =>
      rw [hg] at h2
      exact ⟨c, rfl, by simpa using h2⟩
  · rintro ⟨h1, ⟨c, hc, hcn⟩, h3⟩
    refine ⟨⟨hpre.mpr h1, ?_⟩, by simpa using h3⟩
    rw [hc]
    simpa using hcn

theorem specOptPat_not_req (l : Str) (h : specOptPat l) : reMatchReq l = false := by
  rw [← Bool.not_eq_true, reMatchReq_iff]
  intro hr
  have h1 := hr.1
  have h2 := h.1
  rw [h1] at h2
  exact absurd h2 (by decide)

/-- C5 (counterexample): the line `RequiredX abc` does not begin with the
literal ten-character string `Required. ` (nor `Optional. `), yet the
prefix-stripping step rewrites it to `abc`, because the unescaped `.` of the
Go regex matches the `X`. -/
theorem c5_counterexample :
    stripRO (toChars "RequiredX abc") = toChars "abc" ∧
      List.take 10 (toChars "RequiredX abc") ≠ toChars "Required. " ∧
      List.take 10 (toChars "RequiredX abc") ≠ toChars "Optional. " ∧
      stripRO (toChars "RequiredX abc") ≠ toChars "RequiredX abc" := by
  refine ⟨rfl, by decide, by decide, by decide⟩

/-- C5 (amended): each line first has a leading match of `Required` + any
non-newline character + space removed, then a leading match of `Optional` +
any non-newline character + space removed from the result; a line beginning
with neither pattern is left unchanged. -/
theorem c5_strip_characterization (l : Str) :
    (specReqPat l → stripRO l = stripOpt (l.drop 10)) ∧
      (specOptPat l → stripRO l = l.drop 10) ∧
      (¬specReqPat l → ¬specOptPat l → stripRO l = l) := by
  refine ⟨?_, ?_, ?_⟩
  · intro h
    unfold stripRO stripReq
    rw [if_pos ((reMatchReq_iff l).mpr h)]
  · intro h
    unfold stripRO stripReq stripOpt
    rw [specOptPat_not_req l h]
    simp only [Bool.false_eq_true, if_false]
    rw [if_pos ((reMatchOpt_iff l).mpr h)]
  · intro hr ho
    have h1 : reMatchReq l = false := by
      rw [← Bool.not_eq_true]; exact fun hc => hr ((reMatchReq_iff l).mp hc)
    have h2 : reMatchOpt l = false := by
      rw [← Bool.not_eq_true]; exact fun hc => ho ((reMatchOpt_iff l).mp hc)
    unfold stripRO stripReq stripOpt
    simp [h1, h2]

/-- C5 (witness for the amended theorem): the amended behavior at the line
`Required. go` — the literal prefix is removed. -/
theorem c5_witness : stripRO (toChars "Required. go") = toChars "go" := by
  have h := (c5_strip_characterization (toChars "Required. go")).1
    ⟨by decide, ⟨'.', by decide, by decide⟩, by decide⟩
  rw [h]
  decide

/-! ## The warning sink (`warn`, lines 992-1006)

`warn` formats a position string, writes the diagnostic line to stderr and
increments the run-scoped counter — all inside `if g.genWarnings`.  The
stderr write is modelled as the optionally produced line. -/

structure LocD where
  hasInfo : Bool
  span : List Int
  fileName : Str
deriving DecidableEq, Repr

/-- `warn` of the generator: given the `genWarnings` option, a location, a
line offset, the formatted message and the current counter, produce the
optionally emitted diagnostic line and the new counter value. -/
def warnGo (genWarnings : Bool) (loc : LocD) (lineOffset : Int) (msg : Str)
    (numWarnings : Nat) : Option Str × Nat :=
  if genWarnings then
    let place : Str :=
      if loc.hasInfo ∧ loc.span.length ≥ 2 then
        if lineOffset < 0 then
          loc.fileName ++ toChars ":" ++
            toChars (toString (loc.span.getD 0 0 + lineOffset + 1)) ++ toChars ": "
        else
          loc.fileName ++ toChars ":" ++
            toChars (toString (loc.span.getD 0 0 + 1)) ++ toChars ":" ++
            toChars (toString (loc.span.getD 1 0 + 1)) ++ toChars ": "
      else []
    (some (place ++ msg), numWarnings + 1)
  else (none, numWarnings)

/-- C8 (counterexample): with `genWarnings` unset, a warning event (here a
missing comment) leaves the run-scoped counter unchanged instead of
incrementing it. -/
theorem c8_counterexample :
    (warnGo false ⟨false, [], []⟩ 0 (toChars "no comment found for x") 0).2 = 0 ∧
      (0 : Nat) ≠ 1 := by
  exact ⟨rfl, by decide⟩

/-- C8 (amended): a warning event increments the run-scoped counter exactly
when the `genWarnings` option is set; with the option unset neither the
counter nor the log line is produced. -/
theorem c8_warn_counter (loc : LocD) (off : Int) (msg : Str) (n : Nat) :
    (warnGo true loc off msg n).2 = n + 1 ∧
      (warnGo false loc off msg n).2 = n ∧
      (warnGo false loc off msg n).1 = none := by
  refine ⟨?_, rfl, rfl⟩
  unfold warnGo
  simp

/-! ## Indent normalization (`generateComment`, lines 777-801)

The first loop finds the index of the first non-space character of the first
line (`pad` stays `0` when there is none); the second loop rewrites only the
lines longer than `pad` characters, removing leading whitespace up to
position `pad`. -/

/-- Go's `unicode.IsSpace` on the Latin-1 range. -/
def goIsSpace (c : Char) : Bool :=
  c = ' ' || c = '\t' || c = '\n' || c = '\x0B' || c = '\x0C' || c = '\r' ||
    c = '\u0085' || c = '\u00A0'

/-- The `pad` loop: index of the first non-space character; the Go variable
keeps its zero initialization when the line is empty or all whitespace. -/
def padGoAux (i : Nat) : Str → Nat
  | [] => 0
  | c :: rest => if ¬goIsSpace c then i else padGoAux (i + 1) rest

/-- `pad` as computed from the first comment line. -/
def padGo (l : Str) : Nat := padGoAux 0 l

/-- The `skip` loop run on a line: advance while the character is whitespace,
stopping at the first non-space character or at index `pad`. -/
def skipGoAux (pad i : Nat) : Str → Nat
  | [] => i - 1
  | c :: rest =>
    if ¬goIsSpace c then i
    else if i = pad then i
    else skipGoAux pad (i + 1) rest

/-- `skip` for one line. -/
def skipGo (pad : Nat) (l : Str) : Nat := skipGoAux pad 0 l

/-- The indent-normalization step of `generateComment`: compute `pad` from
the first line, then rewrite every line longer than `pad` to drop its first
`skip` characters. -/
def normalizeIndent : List Str → List Str
  | [] => []
  | l0 :: rest =>
    (l0 :: rest).map (fun l =>
      if padGo l0 < l.length then l.drop (skipGo (padGo l0) l) else l)

/-- Modelled from the claim's words: the leading-whitespace run length of a
line. -/
def leadingRun : Str → Nat
  | [] => 0
  | c :: rest => if goIsSpace c then leadingRun rest + 1 else 0

/-- Modelled from the claim's words: position of the first non-whitespace
character of a line, if any. -/
def firstNonSpaceIdx : Str → Option Nat
  | [] => none
  | c :: rest =>
    if goIsSpace c then (firstNonSpaceIdx rest).map (· + 1) else some 0

/-- The claim's `pad`: the first line's first non-whitespace position, with
the Go fallback of `0` for an all-whitespace or empty first line. -/
def specPad (l : Str) : Nat := (firstNonSpaceIdx l).getD 0

theorem padGoAux_eq (l : Str) : ∀ i : Nat,
    padGoAux i l = match firstNonSpaceIdx l with
      | some k => i + k
      | none => 0 := by
  induction l with
  | nil => intro i; rfl
  | cons c rest ih =>
    intro i
    by_cases hc : goIsSpace c = true
    · rw [show padGoAux i (c :: rest) = padGoAux (i + 1) rest by
        simp [padGoAux, hc]]
      rw [show firstNonSpaceIdx (c :: rest) =
          (firstNonSpaceIdx rest).map (· + 1) by simp [firstNonSpaceIdx, hc]]
      rw [ih (i + 1)]
      cases hf : firstNonSpaceIdx rest with
      | none => simp
      | some k => simp; rw [Nat.add_assoc, Nat.add_comm 1 k]
    · rw [show padGoAux i (c :: rest) = i by simp [padGoAux, hc]]
      rw [show firstNonSpaceIdx (c :: rest) = some 0 by
        simp [firstNonSpaceIdx, hc]]
      simp

theorem padGo_eq (l : Str) : padGo l = specPad l := by
  unfold padGo specPad
  rw [padGoAux_eq]
  cases hf : firstNonSpaceIdx l with
  | none => rfl
  | some k => simp

theorem skipGoAux_eq (pad : Nat) (l : Str) : ∀ i : Nat, i ≤ pad →
    pad < i + l.length → skipGoAux pad i l = min pad (i + leadingRun l) := by
  induction l with
  | nil =>
    intro i h1 h2
    simp at h2
    omega
  | cons c rest ih =>
    intro i h1 h2
    by_cases hc : goIsSpace c = true
    · rw [show leadingRun (c :: rest) = leadingRun rest + 1 by
        simp [leadingRun, hc]]
      by_cases hip : i = pad
      · rw [show skipGoAux pad i (c :: rest) = i by
          simp [skipGoAux, hc, hip]]
        omega
      · rw [show skipGoAux pad i (c :: rest) = skipGoAux pad (i + 1) rest by
          simp [skipGoAux, hc, hip]]
        rw [ih (i + 1) (by omega) (by simp at h2 ⊢; omega)]
        omega
    · rw [show skipGoAux pad i (c :: rest) = i by simp [skipGoAux, hc]]
      rw [show leadingRun (c :: rest) = 0 by simp [leadingRun, hc]]
      omega

/-- C6 (counterexample): for the comment `["  x", " "]` the `pad` is `2`, and
the claim says the second line (one whitespace character, shorter than the
run) becomes empty; the code leaves lines of length at most `pad` untouched,
so the second line stays `" "`. -/
theorem c6_counterexample :
    normalizeIndent [toChars "  x", toChars " "] = [toChars "x", toChars " "] ∧
      normalizeIndent [toChars "  x", toChars " "] ≠ [toChars "x", []] := by
  exact ⟨rfl, by decide⟩

/-- C6 (amended): with `pad` the position of the first non-whitespace
character of the first line (`0` when there is none), every line *longer*
than `pad` is stripped of `min pad (leading-whitespace-run)` characters,
and every line of length at most `pad` — including lines of fewer whitespace
characters than the run — is left unchanged. -/
theorem c6_indent_characterization (lines : List Str) :
    normalizeIndent lines = lines.map (fun l =>
      if specPad (lines.headD []) < l.length
      then l.drop (min (specPad (lines.headD [])) (leadingRun l))
      else l) := by
  cases lines with
  | nil => rfl
  | cons l0 rest =>
    unfold normalizeIndent
    simp only [List.headD_cons]
    apply List.map_congr_left
    intro l _
    rw [padGo_eq]
    by_cases hl : specPad l0 < l.length
    · rw [if_pos hl, if_pos hl]
      rw [skipGo, skipGoAux_eq (specPad l0) l 0 (by omega) (by omega)]
      simp
    · rw [if_neg hl, if_neg hl]

/-! ## HTML-comment elision (`generateComment`, lines 816-844)

The Go loop scans the line array for `<!--`; when a `-->` is found in the
same line it splices the line and re-runs the same index (`i--`), otherwise
it truncates the opener line and blanks following lines until a line with
`-->` is found, whose remainder is re-processed.  Note the two index bugs of
the single-line splice: the `-->` search starts at `commentStart+3` and its
result is used as an absolute position, so the splice keeps part of the span.
The embedding is a state machine over (accumulated output lines, in-comment
flag, remaining lines) with fuel, since the Go loop does not terminate on
every input (for example on the single line `zzz<!--->`). -/

/-- `strings.Index`: position of the first occurrence of `pat` in `l`. -/
def strIndex (pat : Str) : Str → Option Nat
  | [] => if List.isPrefixOf pat ([] : Str) then some 0 else none
  | c :: t =>
    if List.isPrefixOf pat (c :: t) then some 0
    else (strIndex pat t).map (· + 1)

/-- The opening marker `<!--`. -/
def openTok : Str := toChars "<!--"

/-- The closing marker `-->`. -/
def closeTok : Str := toChars "-->"

/-- The elision loop.  `acc` holds the already-final lines in reverse,
`inc` tells whether the scan is inside an unterminated comment (the Go inner
loop), and the fuel bounds the number of iterations. -/
def elideRun : Nat → List Str → Bool → List Str → Option (List Str)
  | _, acc, _, [] => some acc.reverse
  | 0, _, _, _ :: _ => none
  | fuel + 1, acc, false, l :: rest =>
    match strIndex openTok l with
    | none => elideRun fuel (l :: acc) false rest
    | some cs =>
      match strIndex closeTok (l.drop (cs + 3)) with
      | some ce => elideRun fuel acc false ((l.take cs ++ l.drop (ce + 3)) :: rest)
      | none => elideRun fuel (l.take cs :: acc) true rest
  | fuel + 1, acc, true, l :: rest =>
    match strIndex closeTok l with
    | some ce => elideRun fuel acc false (l.drop (ce + 3) :: rest)
    | none => elideRun fuel ([] :: acc) true rest

/-- The HTML-comment elision step on a list of comment lines. -/
def elideGo (fuel : Nat) (lines : List Str) : Option (List Str) :=
  elideRun fuel [] false lines

/-- C4: on the single comment line `a<!--X-->b` the elision step produces
`aX-->b` — the `-->` search of the single-line branch starts at
`commentStart+3` and its relative result is used as an absolute slice index,
so the span's interior and closing marker survive — whereas the claim (and
the code's own comment, "strip out the commented portion") requires `ab`. -/
theorem c4_elide_bug :
    elideGo 10 [toChars "a<!--X-->b"] = some [toChars "aX-->b"] ∧
      toChars "aX-->b" ≠ toChars "ab" := by
  exact ⟨rfl, by decide⟩

theorem strIndex_some_isPre (pat : Str) : ∀ (l : Str) (i : Nat),
    strIndex pat l = some i → List.isPrefixOf pat (l.drop i) = true := by
  intro l
  induction l with
  | nil =>
    intro i h
    by_cases h0 : List.isPrefixOf pat ([] : Str) = true
    · simp only [strIndex] at h
      rw [if_pos h0] at h
      injection h with h'
      subst h'
      exact h0
    · simp only [strIndex] at h
      rw [if_neg h0] at h
      exact absurd h (by simp)
  | cons c t ih =>
    intro i h
    by_cases h0 : List.isPrefixOf pat (c :: t) = true
    · simp only [strIndex] at h
      rw [if_pos h0] at h
      injection h with h'
      subst h'
      exact h0
    · simp only [strIndex] at h
      rw [if_neg h0] at h
      cases hs : strIndex pat t with
      | none => rw [hs] at h; exact absurd h (by simp)
      | some j =>
        rw [hs] at h
        simp only [Option.map_some'] at h
        injection h with h'
        subst h'
        exact ih j hs

theorem strIndex_some_min (pat : Str) : ∀ (l : Str) (i : Nat),
    strIndex pat l = some i →
    ∀ j, j < i → List.isPrefixOf pat (l.drop j) = false := by
  intro l
  induction l with
  | nil =>
    intro i h j hj
    by_cases h0 : List.isPrefixOf pat ([] : Str) = true
    · simp only [strIndex] at h
      rw [if_pos h0] at h
      injection h with h'
      omega
    · simp only [strIndex] at h
      rw [if_neg h0] at h
      exact absurd h (by simp)
  | cons c t ih =>
    intro i h j hj
    by_cases h0 : List.isPrefixOf pat (c :: t) = true
    · simp only [strIndex] at h
      rw [if_pos h0] at h
      injection h with h'
      omega
    · simp only [strIndex] at h
      rw [if_neg h0] at h
      cases hs : strIndex pat t with
      | none => rw [hs] at h; exact absurd h (by simp)
      | some k =>
        rw [hs] at h
        simp only [Option.map_some'] at h
        injection h with h'
        subst h'
        cases j with
        | zero =>
          rw [← Bool.not_eq_true]
          exact h0
        | succ j' =>
          exact ih k hs j' (by omega)

theorem strIndex_none_nowhere (pat : Str) : ∀ l : Str,
    strIndex pat l = none →
    ∀ j, List.isPrefixOf pat (l.drop j) = false := by
  intro l
  induction l with
  | nil =>
    intro h j
    by_cases h0 : List.isPrefixOf pat ([] : Str) = true
    · simp only [strIndex] at h
      rw [if_pos h0] at h
      exact absurd h (by simp)
    · rw [List.drop_nil]
      rw [← Bool.not_eq_true]
      exact h0
  | cons c t ih =>
    intro h j
    by_cases h0 : List.isPrefixOf pat (c :: t) = true
    · simp only [strIndex] at h
      rw [if_pos h0] at h
      exact absurd h (by simp)
    · simp only [strIndex] at h
      rw [if_neg h0] at h
      have hs : strIndex pat t = none := by
        cases hs : strIndex pat t with
        | none => rfl
        | some k => rw [hs] at h; exact absurd h (by simp)
      cases j with
      | zero =>
        rw [← Bool.not_eq_true]
        exact h0
      | succ j' =>
        exact ih hs j'

theorem strIndex_none_of_nowhere (pat : Str) : ∀ l : Str,
    (∀ j, List.isPrefixOf pat (l.drop j) = false) →
    strIndex pat l = none := by
  intro l
  induction l with
  | nil =>
    intro h
    have h0 : List.isPrefixOf pat ([] : Str) = false := h 0
    simp only [strIndex]
    rw [if_neg (by rw [h0]; exact Bool.false_ne_true)]
  | cons c t ih =>
    intro h
    have h0 : List.isPrefixOf pat (c :: t) = false := h 0
    have ht : strIndex pat t = none := ih (fun j => h (j + 1))
    simp only [strIndex]
    rw [if_neg (by rw [h0]; exact Bool.false_ne_true), ht]
    rfl

theorem strIndex_take_none (pat : Str) (hne : pat ≠ []) (l : Str) (i : Nat)
    (h : strIndex pat l = some i) : strIndex pat (l.take i) = none := by
  apply strIndex_none_of_nowhere
  intro j
  by_cases hj : j < i
  · rw [← Bool.not_eq_true]
    intro hpre
    have h1 : pat <+: (l.take i).drop j := List.isPrefixOf_iff_prefix.mp hpre
    have h2 : (l.take i).drop j <+: l.drop j :=
      List.IsPrefix.drop (List.take_prefix i l) j
    have h3 : List.isPrefixOf pat (l.drop j) = true :=
      List.isPrefixOf_iff_prefix.mpr (h1.trans h2)
    rw [strIndex_some_min pat l i h j hj] at h3
    exact absurd h3 (by simp)
  · have hlen : (l.take i).length ≤ j := by
      have := List.length_take_le i l
      omega
    rw [List.drop_eq_nil_of_le hlen]
    cases pat with
    | nil => exact absurd rfl hne
    | cons p ps => rfl

theorem elideRun_no_open : ∀ (fuel : Nat) (acc : List Str) (inc : Bool)
    (lines out : List Str),
    (∀ l ∈ acc, strIndex openTok l = none) →
    elideRun fuel acc inc lines = some out →
    ∀ l ∈ out, strIndex openTok l = none := by
  intro fuel
  induction fuel with
  | zero =>
    intro acc inc lines out hacc h
    cases lines with
    | nil =>
      simp only [elideRun] at h
      injection h with h'
      subst h'
      intro l hl
      exact hacc l (List.mem_reverse.mp hl)
    | cons l rest =>
      cases inc <;> exact absurd h (by simp [elideRun])
  | succ f ih =>
    intro acc inc lines out hacc h
    cases lines with
    | nil =>
      simp only [elideRun] at h
      injection h with h'
      subst h'
      intro l hl
      exact hacc l (List.mem_reverse.mp hl)
    | cons l rest =>
      cases inc with
      | false =>
        simp only [elideRun] at h
        cases ho : strIndex openTok l with
        | none =>
          rw [ho] at h
          simp only [] at h
          refine ih (l :: acc) false rest out ?_ h
          intro x hx
          rcases List.mem_cons.mp hx with hx | hx
          · rw [hx]; exact ho
          · exact hacc x hx
        | some cs =>
          rw [ho] at h
          simp only [] at h
          cases hc : strIndex closeTok (l.drop (cs + 3)) with
          | some ce =>
            rw [hc] at h
            simp only [] at h
            exact ih acc false ((l.take cs ++ l.drop (ce + 3)) :: rest) out hacc h
          | none =>
            rw [hc] at h
            simp only [] at h
            refine ih (l.take cs :: acc) true rest out ?_ h
            intro x hx
            rcases List.mem_cons.mp hx with hx | hx
            · rw [hx]
              exact strIndex_take_none openTok (by decide) l cs ho
            · exact hacc x hx
      | true =>
        simp only [elideRun] at h
        cases hc : strIndex closeTok l with
        | some ce =>
          rw [hc] at h
          simp only [] at h
          exact ih acc false (l.drop (ce + 3) :: rest) out hacc h
        | none =>
          rw [hc] at h
          simp only [] at h
          refine ih ([] :: acc) true rest out ?_ h
          intro x hx
          rcases List.mem_cons.mp hx with hx | hx
          · rw [hx]; rfl
          · exact hacc x hx

theorem elideRun_clean_id : ∀ (lines acc : List Str) (fuel : Nat),
    (∀ l ∈ lines, strIndex openTok l = none) → lines.length ≤ fuel →
    elideRun fuel acc false lines = some (acc.reverse ++ lines) := by
  intro lines
  induction lines with
  | nil =>
    intro acc fuel _ _
    cases fuel <;> simp [elideRun]
  | cons l rest ih =>
    intro acc fuel hcl hlen
    cases fuel with
    | zero => simp at hlen
    | succ f =>
      simp only [elideRun]
      rw [hcl l (List.mem_cons_self l rest)]
      rw [ih (l :: acc) f (fun x hx => hcl x (List.mem_cons_of_mem l hx))
        (by simp at hlen ⊢; omega)]
      simp

/-- C9: the HTML-comment elision step is idempotent — whenever a pass
terminates (returns under the given fuel), every line of its output is free
of `<!--`, so re-running the pass on the output returns it unchanged. -/
theorem c9_elide_idempotent (fuel : Nat) (lines out : List Str)
    (h : elideGo fuel lines = some out) :
    elideGo out.length out = some out := by
  have hclean : ∀ l ∈ out, strIndex openTok l = none :=
    elideRun_no_open fuel [] false lines out (by intro l hl; simp at hl) h
  unfold elideGo
  rw [elideRun_clean_id out [] out.length hclean (le_refl _)]
  simp

/-- C9 (witness): a concrete elision pass followed by a second pass that
leaves the result unchanged. -/
theorem c9_witness :
    elideGo 5 [toChars "x<!--y-->z"] = some [toChars "xy-->z"] ∧
      elideGo 1 [toChars "xy-->z"] = some [toChars "xy-->z"] := by
  exact ⟨rfl, c9_elide_idempotent 5 [toChars "x<!--y-->z"] [toChars "xy-->z"] rfl⟩

/-! ## Dependency closure (`includeUnsituatedDependencies`, lines 230-252)

A message's fields are scanned; a referenced Message with empty resolved
home location is appended to the working message list unless its display
name is already there, after which the *same* message's field list is
re-scanned; a referenced Enum with empty resolved home location is appended
unconditionally.  Field-type nodes carry the attributes the resolver reads
(display name as resolved by `relativeName`, the file home location, the
package home location which is absent when the package has no file). -/

structure EnumNode where
  name : Str
  fileHome : Str
  pkgHome : Option Str
deriving DecidableEq, Repr

mutual
inductive MsgNode where
  | mk (name : Str) (fileHome : Str) (pkgHome : Option Str)
      (fields : List FieldNode)
inductive FieldNode where
  | prim
  | msgF (m : MsgNode)
  | enumF (e : EnumNode)
end

def MsgNode.name : MsgNode → Str
  | MsgNode.mk n _ _ _ => n

def MsgNode.fileHome : MsgNode → Str
  | MsgNode.mk _ f _ _ => f

def MsgNode.pkgHome : MsgNode → Option Str
  | MsgNode.mk _ _ p _ => p

def MsgNode.fields : MsgNode → List FieldNode
  | MsgNode.mk _ _ _ fs => fs

/-- `descLocation` for a Message reference: the file's home location in
per-file mode, the package's (if its file descriptor exists) in per-package
mode. -/
def descLocM (m : MsgNode) (isPackage : Bool) : Str :=
  if isPackage then (MsgNode.pkgHome m).getD [] else MsgNode.fileHome m

/-- `descLocation` for an Enum reference. -/
def descLocE (e : EnumNode) (isPackage : Bool) : Str :=
  if isPackage then e.pkgHome.getD [] else e.fileHome

/-- `hasName`: whether some message of the working list has the display
name. -/
def hasNameM (msgs : List MsgNode) (n : Str) : Bool :=
  msgs.any (fun m => MsgNode.name m == n)

mutual
/-- `includeUnsituatedDependencies`: scan the fields of `msg`, extending the
working lists; fuel models the dedup-bounded termination of the Go
recursion. -/
def inclRec : Nat → List MsgNode → List EnumNode → MsgNode → Bool →
    Option (List MsgNode × List EnumNode)
  | 0, _, _, _, _ => none
  | f + 1, msgs, enums, msg, p => inclFields f msgs enums msg (MsgNode.fields msg) p

/-- The field loop of `includeUnsituatedDependencies`. -/
def inclFields : Nat → List MsgNode → List EnumNode → MsgNode →
    List FieldNode → Bool → Option (List MsgNode × List EnumNode)
  | _, msgs, enums, _, [], _ => some (msgs, enums)
  | 0, _, _, _, _ :: _, _ => none
  | f + 1, msgs, enums, msg, FieldNode.prim :: rest, p =>
    inclFields f msgs enums msg rest p
  | f + 1, msgs, enums, msg, FieldNode.msgF fm :: rest, p =>
    if descLocM fm p = [] then
      if hasNameM msgs (MsgNode.name fm) then
        inclFields f msgs enums msg rest p
      else
        match inclRec f (msgs ++ [fm]) enums msg p with
        | none => none
        | some (ms, es) => inclFields f ms es msg rest p
    else inclFields f msgs enums msg rest p
  | f + 1, msgs, enums, msg, FieldNode.enumF fe :: rest, p =>
    if descLocE fe p = [] then
      inclFields f msgs (enums ++ [fe]) msg rest p
    else inclFields f msgs enums msg rest p
end

/-- The guarantees of the amended claim, for one result state against one
input state: appended messages and enums have empty resolved home location,
and message display names stay duplicate-free. -/
def closureInv (p : Bool) (ms : List MsgNode) (es : List EnumNode)
    (ms' : List MsgNode) (es' : List EnumNode) : Prop :=
  (∀ x ∈ ms', x ∈ ms ∨ descLocM x p = []) ∧
    (∀ e ∈ es', e ∈ es ∨ descLocE e p = []) ∧
    ((ms.map MsgNode.name).Nodup → (ms'.map MsgNode.name).Nodup)

theorem closureInv_comp (p : Bool) (ms : List MsgNode) (es : List EnumNode)
    (ms1 : List MsgNode) (es1 : List EnumNode)
    (ms2 : List MsgNode) (es2 : List EnumNode)
    (h1 : closureInv p ms es ms1 es1) (h2 : closureInv p ms1 es1 ms2 es2) :
    closureInv p ms es ms2 es2 := by
  obtain ⟨a1, b1, c1⟩ := h1
  obtain ⟨a2, b2, c2⟩ := h2
  refine ⟨?_, ?_, fun hn => c2 (c1 hn)⟩
  · intro x hx
    rcases a2 x hx with hx' | hx'
    · exact a1 x hx'
    · exact Or.inr hx'
  · intro e he
    rcases b2 e he with he' | he'
    · exact b1 e he'
    · exact Or.inr he'

theorem closureInv_refl (p : Bool) (ms : List MsgNode) (es : List EnumNode) :
    closureInv p ms es ms es :=
  ⟨fun x hx => Or.inl hx, fun e he => Or.inl he, id⟩

theorem incl_invariant : ∀ fuel : Nat,
    (∀ (ms : List MsgNode) (es : List EnumNode) (m : MsgNode) (p : Bool)
      (ms' : List MsgNode) (es' : List EnumNode),
      inclRec fuel ms es m p = some (ms', es') → closureInv p ms es ms' es') ∧
    (∀ (ms : List MsgNode) (es : List EnumNode) (m : MsgNode)
      (fs : List FieldNode) (p : Bool)
      (ms' : List MsgNode) (es' : List EnumNode),
      inclFields fuel ms es m fs p = some (ms', es') →
        closureInv p ms es ms' es') := by
  intro fuel
  induction fuel with
  | zero =>
    constructor
    · intro ms es m p ms' es' h
      exact absurd h (by simp [inclRec])
    · intro ms es m fs p ms' es' h
      cases fs with
      | nil =>
        simp only [inclFields] at h
        injection h with h'
        injection h' with h1 h2
        subst h1; subst h2
        exact closureInv_refl p ms es
      | cons fld rest =>
        exact absurd h (by simp [inclFields])
  | succ f ih =>
    constructor
    · intro ms es m p ms' es' h
      simp only [inclRec] at h
      exact ih.2 ms es m (MsgNode.fields m) p ms' es' h
    · intro ms es m fs p ms' es' h
      cases fs with
      | nil =>
        simp only [inclFields] at h
        injection h with h'
        injection h' with h1 h2
        subst h1; subst h2
        exact closureInv_refl p ms es
      | cons fld rest =>
        cases fld with
        | prim =>
          simp only [inclFields] at h
          exact ih.2 ms es m rest p ms' es' h
        | msgF fm =>
          simp only [inclFields] at h
          by_cases hloc : descLocM fm p = []
          · rw [if_pos hloc] at h
            by_cases hdup : hasNameM ms (MsgNode.name fm) = true
            · rw [if_pos hdup] at h
              exact ih.2 ms es m rest p ms' es' h
            · rw [if_neg hdup] at h
              cases hr : inclRec f (ms ++ [fm]) es m p with
              | none => rw [hr] at h; exact absurd h (by simp)
              | some st =>
                obtain ⟨ms1, es1⟩ := st
                rw [hr] at h
                have step1 : closureInv p (ms ++ [fm]) es ms1 es1 :=
                  ih.1 (ms ++ [fm]) es m p ms1 es1 hr
                have step2 : closureInv p ms1 es1 ms' es' :=
                  ih.2 ms1 es1 m rest p ms' es' h
                have hnotin : MsgNode.name fm ∉ ms.map MsgNode.name := by
                  intro hmem
                  rcases List.mem_map.mp hmem with ⟨x, hx, hxn⟩
                  exact hdup (List.any_eq_true.mpr
                    ⟨x, hx, by rw [beq_iff_eq]; exact hxn⟩)
                have stepA : closureInv p ms es (ms ++ [fm]) es := by
                  refine ⟨?_, fun e he => Or.inl he, ?_⟩
                  · intro x hx
                    rcases List.mem_append.mp hx with hx' | hx'
                    · exact Or.inl hx'
                    · rcases List.mem_singleton.mp hx' with rfl
                      exact Or.inr hloc
                  · intro hn
                    rw [List.map_append, List.map_singleton]
                    rw [List.nodup_append]
                    exact ⟨hn, List.nodup_singleton _, by
                      intro a ha hb
                      rcases List.mem_singleton.mp hb with rfl
                      exact hnotin ha⟩
                exact closureInv_comp p ms es ms1 es1 ms' es'
                  (closureInv_comp p ms es (ms ++ [fm]) es ms1 es1 stepA step1)
                  step2
          · rw [if_neg hloc] at h
            exact ih.2 ms es m rest p ms' es' h
        | enumF fe =>
          simp only [inclFields] at h
          by_cases hloc : descLocE fe p = []
          · rw [if_pos hloc] at h
            have step2 : closureInv p ms (es ++ [fe]) ms' es' :=
              ih.2 ms (es ++ [fe]) m rest p ms' es' h
            have stepA : closureInv p ms es ms (es ++ [fe]) := by
              refine ⟨fun x hx => Or.inl hx, ?_, id⟩
              intro e he
              rcases List.mem_append.mp he with he' | he'
              · exact Or.inl he'
              · rcases List.mem_singleton.mp he' with rfl
                exact Or.inr hloc
            exact closureInv_comp p ms es ms (es ++ [fe]) ms' es' stepA step2
          · rw [if_neg hloc] at h
            exact ih.2 ms es m rest p ms' es' h

/-- C2 (counterexample): a message with two fields referencing the same
unsituated enum appends that enum twice — `includeUnsituatedDependencies`
has no duplicate-name check for enums, so the output enum list carries a
duplicate display name. -/
theorem c2_counterexample :
    inclRec 5 [] []
      (MsgNode.mk (toChars "M") [] none
        [FieldNode.enumF ⟨toChars "E", [], none⟩,
         FieldNode.enumF ⟨toChars "E", [], none⟩]) false =
      some ([], [⟨toChars "E", [], none⟩, ⟨toChars "E", [], none⟩]) ∧
      ¬ (([(⟨toChars "E", [], none⟩ : EnumNode),
          ⟨toChars "E", [], none⟩].map EnumNode.name).Nodup) := by
  exact ⟨rfl, by decide⟩

/-- C2 (amended): the dependency-closure resolver never appends a Message or
Enum whose resolved home location is non-empty, and never appends a Message
whose display name already occurs in the working message list (so message
display names stay duplicate-free); Enums are appended without a
duplicate-name check. -/
theorem c2_closure_guarantees (fuel : Nat) (ms : List MsgNode)
    (es : List EnumNode) (m : MsgNode) (p : Bool) (ms' : List MsgNode)
    (es' : List EnumNode) (h : inclRec fuel ms es m p = some (ms', es')) :
    (∀ x ∈ ms', x ∈ ms ∨ descLocM x p = []) ∧
      (∀ e ∈ es', e ∈ es ∨ descLocE e p = []) ∧
      ((ms.map MsgNode.name).Nodup → (ms'.map MsgNode.name).Nodup) :=
  (incl_invariant fuel).1 ms es m p ms' es' h

/-- C2 (witness for the amended theorem): a message with one field
referencing an unsituated message `D`; the closure pulls `D` in once. -/
theorem c2_witness :
    (∀ x ∈ [MsgNode.mk (toChars "D") [] none []],
        x ∈ ([] : List MsgNode) ∨ descLocM x false = []) ∧
      (∀ e ∈ ([] : List EnumNode),
        e ∈ ([] : List EnumNode) ∨ descLocE e false = []) ∧
      ((([] : List MsgNode).map MsgNode.name).Nodup →
        (([MsgNode.mk (toChars "D") [] none []]).map MsgNode.name).Nodup) :=
  c2_closure_guarantees 5 [] []
    (MsgNode.mk (toChars "M") [] none
      [FieldNode.msgF (MsgNode.mk (toChars "D") [] none [])]) false
    [MsgNode.mk (toChars "D") [] none []] [] rfl

/-! ## The cross-reference linker (`linkify`, lines 953-990)

A node carries the attributes `linkify` reads: the dotted name, the owning
package name, the file home location, the package home location (absent when
the package has no file descriptor), the hidden flag, and whether it is a
message and a synthetic map-entry.  The generator context carries the current
package name and the current front-matter provider's home location (absent
when the provider is nil). -/

structure Node where
  dotted : Str
  pkgName : Str
  fileHome : Str
  pkgFileHome : Option Str
  hidden : Bool
  isMsg : Bool
  mapEntry : Bool
deriving DecidableEq, Repr

structure GenCtx where
  currentPkgName : Str
  curFMHome : Option Str
deriving DecidableEq, Repr

/-- `normalizeID`: replace every space, then every dot, by a dash. -/
def normalizeID (id : Str) : Str :=
  (id.map (fun c => if c = ' ' then '-' else c)).map
    (fun c => if c = '.' then '-' else c)

/-- `relativeName`: the dotted name, package-qualified when the node's
package is not the current package. -/
def relativeName (ctx : GenCtx) (o : Node) : Str :=
  if o.pkgName = ctx.currentPkgName then o.dotted
  else o.pkgName ++ toChars "." ++ o.dotted

/-- `absoluteName`: always package-qualified. -/
def absoluteName (o : Node) : Str := o.pkgName ++ toChars "." ++ o.dotted

/-- The `wellKnownTypes` table. -/
def wellKnownTypes : List (Str × Str) := [
  (toChars "google.protobuf.Duration", toChars "https://developers.google.com/protocol-buffers/docs/reference/google.protobuf#duration"),
  (toChars "google.protobuf.Timestamp", toChars "https://developers.google.com/protocol-buffers/docs/reference/google.protobuf#timestamp"),
  (toChars "google.protobuf.Any", toChars "https://developers.google.com/protocol-buffers/docs/reference/google.protobuf#any"),
  (toChars "google.protobuf.BytesValue", toChars "https://developers.google.com/protocol-buffers/docs/reference/google.protobuf#bytesvalue"),
  (toChars "google.protobuf.StringValue", toChars "https://developers.google.com/protocol-buffers/docs/reference/google.protobuf#stringvalue"),
  (toChars "google.protobuf.BoolValue", toChars "https://developers.google.com/protocol-buffers/docs/reference/google.protobuf#boolvalue"),
  (toChars "google.protobuf.Int32Value", toChars "https://developers.google.com/protocol-buffers/docs/reference/google.protobuf#int32value"),
  (toChars "google.protobuf.Int64Value", toChars "https://developers.google.com/protocol-buffers/docs/reference/google.protobuf#int64value"),
  (toChars "google.protobuf.Uint32Value", toChars "https://developers.google.com/protocol-buffers/docs/reference/google.protobuf#uint32value"),
  (toChars "google.protobuf.Uint64Value", toChars "https://developers.google.com/protocol-buffers/docs/reference/google.protobuf#uint64value"),
  (toChars "google.protobuf.FloatValue", toChars "https://developers.google.com/protocol-buffers/docs/reference/google.protobuf#floatvalue"),
  (toChars "google.protobuf.DoubleValue", toChars "https://developers.google.com/protocol-buffers/docs/reference/google.protobuf#doublevalue"),
  (toChars "google.protobuf.Empty", toChars "https://developers.google.com/protocol-buffers/docs/reference/google.protobuf#empty"),
  (toChars "google.protobuf.EnumValue", toChars "https://developers.google.com/protocol-buffers/docs/reference/google.protobuf#enumvalue"),
  (toChars "google.protobuf.ListValue", toChars "https://developers.google.com/protocol-buffers/docs/reference/google.protobuf#listvalue"),
  (toChars "google.protobuf.NullValue", toChars "https://developers.google.com/protocol-buffers/docs/reference/google.protobuf#nullvalue"),
  (toChars "google.protobuf.Struct", toChars "https://developers.google.com/protocol-buffers/docs/reference/google.protobuf#struct")]

/-- Go map lookup with the empty-string default. -/
def wkLookup (k : Str) : Str :=
  match wellKnownTypes.find? (fun p => p.1 == k) with
  | some p => p.2
  | none => []

/-- `strings.LastIndex(name, ".")`. -/
def lastDotIdx : Str → Option Nat
  | [] => none
  | c :: t =>
    match lastDotIdx t with
    | some i => some (i + 1)
    | none => if c = '.' then some 0 else none

/-- The display-text shortening applied when `onlyLastComponent` is set:
keep the part after the last dot when that dot is neither leading nor
trailing. -/
def displayOf (name : Str) (onlyLastComponent : Bool) : Str :=
  if onlyLastComponent then
    match lastDotIdx name with
    | some idx =>
      if 0 < idx ∧ idx < name.length - 1 then name.drop (idx + 1) else name
    | none => name
  else name

/-- An HTML anchor element. -/
def anchorHtml (href text : Str) : Str :=
  toChars "<a href=\"" ++ href ++ toChars "\">" ++ text ++ toChars "</a>"

/-- The home-location computation inside `linkify`: the file home location,
or the package's when the file one is empty and the package has a file
descriptor. -/
def linkifyLoc (o : Node) : Str :=
  if o.fileHome = [] then
    match o.pkgFileHome with
    | some h => h
    | none => []
  else o.fileHome

/-- `linkify`. -/
def linkify : GenCtx → Option Node → Str → Bool → Str
  | _, none, name, _ => name
  | ctx, some o, name, ab =>
    if o.isMsg ∧ o.mapEntry then name
    else if wkLookup (absoluteName o) ≠ [] then
      anchorHtml (wkLookup (absoluteName o)) (displayOf name ab)
    else if o.hidden = false ∧ linkifyLoc o ≠ [] ∧
        ctx.curFMHome ≠ some (linkifyLoc o) then
      anchorHtml (linkifyLoc o ++ toChars "#" ++ normalizeID o.dotted)
        (displayOf name ab)
    else
      anchorHtml (toChars "#" ++ normalizeID (relativeName ctx o))
        (displayOf name ab)

/-- Modelled from the claim's words: file-specific home-location override if
set, else the package-wide one if set, else empty. -/
def homeLoc (o : Node) : Str :=
  if o.fileHome ≠ [] then o.fileHome else o.pkgFileHome.getD []

theorem linkifyLoc_eq (o : Node) : linkifyLoc o = homeLoc o := by
  unfold linkifyLoc homeLoc
  by_cases hf : o.fileHome = []
  · rw [if_pos hf, if_neg (by simp [hf])]
    cases o.pkgFileHome <;> rfl
  · rw [if_neg hf, if_pos hf]

/-- C1 (counterexample): a *hidden* node whose home location `https://x` is
non-empty and differs from the current document's (empty) home location is
rendered as a local `#` anchor — `linkify` only takes the external-link
branch for non-hidden nodes. -/
theorem c1_counterexample :
    linkify ⟨toChars "pkg", some []⟩
      (some ⟨toChars "Foo", toChars "pkg", toChars "https://x", none,
        true, true, false⟩)
      (toChars "Foo") false = toChars "<a href=\"#Foo\">Foo</a>" ∧
    homeLoc ⟨toChars "Foo", toChars "pkg", toChars "https://x", none,
        true, true, false⟩ ≠ [] ∧
    homeLoc ⟨toChars "Foo", toChars "pkg", toChars "https://x", none,
        true, true, false⟩ ≠ (some ([] : Str)).getD [] ∧
    List.isPrefixOf (toChars "<a href=\"#")
      (linkify ⟨toChars "pkg", some []⟩
        (some ⟨toChars "Foo", toChars "pkg", toChars "https://x", none,
          true, true, false⟩)
        (toChars "Foo") false) = true := by
  exact ⟨rfl, by decide, by decide, by decide⟩

/-- C1 (amended): for every non-hidden, non-map-entry Message or Enum node
whose computed home location is non-empty and differs from the home location
of the document being rendered, `linkify` returns an external link — either
to the well-known-type URL or to `home-location#anchor(dotted-name)` — for
every abbreviate flag and every display text; it never takes the local-anchor
branch. -/
theorem c1_external_link (ctx : GenCtx) (o : Node) (name : Str) (ab : Bool)
    (hhid : o.hidden = false) (hmap : o.mapEntry = false)
    (hloc : homeLoc o ≠ [])
    (hdiff : homeLoc o ≠ ctx.curFMHome.getD []) :
    (wkLookup (absoluteName o) ≠ [] ∧
      linkify ctx (some o) name ab =
        anchorHtml (wkLookup (absoluteName o)) (displayOf name ab)) ∨
    (wkLookup (absoluteName o) = [] ∧
      linkify ctx (some o) name ab =
        anchorHtml (homeLoc o ++ toChars "#" ++ normalizeID o.dotted)
          (displayOf name ab)) := by
  simp only [linkify]
  rw [if_neg (by rw [hmap]; simp)]
  by_cases hwk : wkLookup (absoluteName o) ≠ []
  · rw [if_pos hwk]
    exact Or.inl ⟨hwk, rfl⟩
  · rw [if_neg hwk]
    push_neg at hwk
    have hcond : o.hidden = false ∧ linkifyLoc o ≠ [] ∧
        ctx.curFMHome ≠ some (linkifyLoc o) := by
      refine ⟨hhid, ?_, ?_⟩
      · rw [linkifyLoc_eq]; exact hloc
      · rw [linkifyLoc_eq]
        intro hc
        exact hdiff (by rw [hc]; rfl)
    rw [if_pos hcond]
    right
    refine ⟨hwk, ?_⟩
    rw [linkifyLoc_eq]

/-- C1 (witness for the amended theorem): a non-hidden node homed at
`https://docs`, rendered from a document homed at `h` — the result is the
external link. -/
theorem c1_witness :
    (wkLookup (absoluteName ⟨toChars "Bar", toChars "q", toChars "https://docs",
        none, false, true, false⟩) ≠ [] ∧
      linkify ⟨toChars "p", some (toChars "h")⟩
        (some ⟨toChars "Bar", toChars "q", toChars "https://docs", none,
          false, true, false⟩) (toChars "q.Bar") true =
        anchorHtml (wkLookup (absoluteName ⟨toChars "Bar", toChars "q",
          toChars "https://docs", none, false, true, false⟩))
          (displayOf (toChars "q.Bar") true)) ∨
    (wkLookup (absoluteName ⟨toChars "Bar", toChars "q", toChars "https://docs",
        none, false, true, false⟩) = [] ∧
      linkify ⟨toChars "p", some (toChars "h")⟩
        (some ⟨toChars "Bar", toChars "q", toChars "https://docs", none,
          false, true, false⟩) (toChars "q.Bar") true =
        anchorHtml (homeLoc ⟨toChars "Bar", toChars "q", toChars "https://docs",
            none, false, true, false⟩ ++ toChars "#" ++
            normalizeID (toChars "Bar"))
          (displayOf (toChars "q.Bar") true)) :=
  c1_external_link ⟨toChars "p", some (toChars "h")⟩
    ⟨toChars "Bar", toChars "q", toChars "https://docs", none, false, true,
      false⟩ (toChars "q.Bar") true rfl rfl (by decide) (by decide)

/-! ## The hierarchical type sort (`generateFile`, lines 317-346)

`addKey` places a not-yet-seen name and then scans the whole `typeList` for
names having it as a dotted prefix, placing them recursively; the outer loop
feeds every `typeList` name through `addKey`.  The recursion terminates only
through the `seen` check, so the embedding carries fuel. -/

/-- `strings.HasPrefix(name, key + ".")`. -/
def isChild (key n : Str) : Bool := List.isPrefixOf (key ++ toChars ".") n

structure SortSt where
  seen : List Str
  out : List Str
deriving DecidableEq, Repr

mutual
/-- `addKey`: skip a seen key, otherwise place it and scan `tl` for its
descendants. -/
def addKey (tl : List Str) : Nat → Str → SortSt → Option SortSt
  | 0, _, _ => none
  | f + 1, key, st =>
    if key ∈ st.seen then some st
    else goChildren tl f key tl ⟨key :: st.seen, st.out ++ [key]⟩

/-- The `for _, name := range typeList` scan inside `addKey`. -/
def goChildren (tl : List Str) : Nat → Str → List Str → SortSt → Option SortSt
  | 0, _, _, _ => none
  | _ + 1, _, [], st => some st
  | f + 1, key, n :: rest, st =>
    if isChild key n then
      match addKey tl f n st with
      | none => none
      | some st' => goChildren tl f key rest st'
    else goChildren tl f key rest st
end

/-- The outer `for _, name := range typeList { addKey(name) }` loop. -/
def sortFold (tl : List Str) : Nat → List Str → SortSt → Option SortSt
  | _, [], st => some st
  | f, n :: rest, st =>
    match addKey tl f n st with
    | none => none
    | some st' => sortFold tl f rest st'

/-- The hierarchical sort of `generateFile`: run the outer loop on the type
list and return `sortedTypes`. -/
def sortTypes (fuel : Nat) (tl : List Str) : Option (List Str) :=
  (sortFold tl fuel tl ⟨[], []⟩).map SortSt.out

theorem isChild_length {a b : Str} (h : isChild a b = true) :
    a.length + 1 ≤ b.length := by
  unfold isChild at h
  have h1 := List.IsPrefix.length_le (List.isPrefixOf_iff_prefix.mp h)
  have h2 : (a ++ toChars ".").length = a.length + 1 := by
    rw [List.length_append]; rfl
  omega

theorem isChild_ne {a b : Str} (h : isChild a b = true) : b ≠ a := by
  intro he
  subst he
  have := isChild_length h
  omega

theorem isChild_irrefl (a : Str) : isChild a a = false := by
  rw [← Bool.not_eq_true]
  intro h
  exact absurd rfl (isChild_ne h)

theorem isChild_trans {a b c : Str} (h1 : isChild a b = true)
    (h2 : isChild b c = true) : isChild a c = true := by
  unfold isChild at h1 h2 ⊢
  rw [List.isPrefixOf_iff_prefix] at h1 h2 ⊢
  exact (h1.trans (List.prefix_append b (toChars "."))).trans h2

theorem isChild_comparable {k a n : Str} (h1 : isChild k n = true)
    (h2 : isChild a n = true) :
    isChild k a = true ∨ k = a ∨ isChild a k = true := by
  unfold isChild at h1 h2
  rw [List.isPrefixOf_iff_prefix] at h1 h2
  have hcmp := List.prefix_or_prefix_of_prefix h1 h2
  have hdot : ∀ x : Str, (x ++ toChars ".").length = x.length + 1 := by
    intro x; rw [List.length_append]; rfl
  have key : ∀ x y : Str, (x ++ toChars ".") <+: (y ++ toChars ".") →
      isChild x y = true ∨ x = y := by
    intro x y hp
    by_cases hl : x.length < y.length
    · left
      unfold isChild
      rw [List.isPrefixOf_iff_prefix]
      have hle : (x ++ toChars ".").length ≤ y.length := by rw [hdot]; omega
      exact (List.isPrefix_append_of_length hle).mp hp
    · right
      have hlen := List.IsPrefix.length_le hp
      rw [hdot, hdot] at hlen
      have hlen2 : (x ++ toChars ".").length = (y ++ toChars ".").length := by
        rw [hdot, hdot]; omega
      have heq := List.IsPrefix.eq_of_length hp hlen2
      have hx : x = (x ++ toChars ".").take x.length := by
        rw [List.take_left]
      rw [hx, heq]
      have hxy : x.length = y.length := by omega
      rw [hxy, List.take_left]
  rcases hcmp with hp | hp
  · rcases key k a hp with h | h
    · exact Or.inl h
    · exact Or.inr (Or.inl h)
  · rcases key a k hp with h | h
    · exact Or.inr (Or.inr h)
    · exact Or.inr (Or.inl h.symm)

/-- The seen list and the output list always hold the same names. -/
def SIp (st : SortSt) : Prop := ∀ x, x ∈ st.seen ↔ x ∈ st.out

theorem SIp_push (K : Str) (st : SortSt) (h : SIp st) :
    SIp ⟨K :: st.seen, st.out ++ [K]⟩ := by
  intro x
  simp only [List.mem_cons, List.mem_append, List.mem_singleton, h x]
  tauto

theorem addKey_basic (tl : List Str) : ∀ fuel : Nat,
    (∀ (K : Str) (st st' : SortSt), addKey tl fuel K st = some st' →
      (∃ d, st'.out = st.out ++ d ∧ ∀ x ∈ d, x = K ∨ isChild K x = true) ∧
      (∀ x ∈ st.seen, x ∈ st'.seen) ∧ K ∈ st'.seen ∧ (SIp st → SIp st')) ∧
    (∀ (K : Str) (ns : List Str) (st st' : SortSt),
      goChildren tl fuel K ns st = some st' →
      (∃ d, st'.out = st.out ++ d ∧ ∀ x ∈ d, isChild K x = true) ∧
      (∀ x ∈ st.seen, x ∈ st'.seen) ∧
      (∀ b ∈ ns, isChild K b = true → b ∈ st'.seen) ∧ (SIp st → SIp st')) := by
  intro fuel
  induction fuel with
  | zero =>
    constructor
    · intro K st st' h
      exact absurd h (by simp [addKey])
    · intro K ns st st' h
      exact absurd h (by simp [goChildren])
  | succ f ih =>
    constructor
    · intro K st st' h
      simp only [addKey] at h
      by_cases hseen : K ∈ st.seen
      · rw [if_pos hseen] at h
        injection h with h'
        subst h'
        exact ⟨⟨[], by simp, by simp⟩, fun x hx => hx, hseen, id⟩
      · rw [if_neg hseen] at h
        obtain ⟨⟨d, hout, hdall⟩, hmono, hK1, hSIp⟩ :=
          ih.2 K tl ⟨K :: st.seen, st.out ++ [K]⟩ st' h
        refine ⟨⟨K :: d, ?_, ?_⟩, ?_, ?_, ?_⟩
        · rw [hout]; simp
        · intro x hx
          rcases List.mem_cons.mp hx with hx | hx
          · exact Or.inl hx
          · exact Or.inr (hdall x hx)
        · intro x hx
          exact hmono x (List.mem_cons.mpr (Or.inr hx))
        · exact hmono K (List.mem_cons.mpr (Or.inl rfl))
        · intro hsi
          exact hSIp (SIp_push K st hsi)
    · intro K ns st st' h
      cases ns with
      | nil =>
        simp only [goChildren] at h
        injection h with h'
        subst h'
        exact ⟨⟨[], by simp, by simp⟩, fun x hx => hx, by simp, id⟩
      | cons n rest =>
        simp only [goChildren] at h
        by_cases hc : isChild K n = true
        · rw [if_pos hc] at h
          cases hr : addKey tl f n st with
          | none => rw [hr] at h; exact absurd h (by simp)
          | some st'' =>
            rw [hr] at h
            obtain ⟨⟨dA, houtA, hdallA⟩, hmonoA, hnseen, hSIpA⟩ :=
              ih.1 n st st'' hr
            obtain ⟨⟨dG, houtG, hdallG⟩, hmonoG, hK1G, hSIpG⟩ :=
              ih.2 K rest st'' st' h
            refine ⟨⟨dA ++ dG, ?_, ?_⟩, ?_, ?_, ?_⟩
            · rw [houtG, houtA]; simp
            · intro x hx
              rcases List.mem_append.mp hx with hx | hx
              · rcases hdallA x hx with hx' | hx'
                · rw [hx']; exact hc
                · exact isChild_trans hc hx'
              · exact hdallG x hx
            · intro x hx
              exact hmonoG x (hmonoA x hx)
            · intro b hb hKb
              rcases List.mem_cons.mp hb with hb | hb
              · subst hb
                exact hmonoG b hnseen
              · exact hK1G b hb hKb
            · intro hsi
              exact hSIpG (hSIpA hsi)
        · rw [if_neg hc] at h
          obtain ⟨hext, hmono, hK1, hSIp⟩ := ih.2 K rest st st' h
          refine ⟨hext, hmono, ?_, hSIp⟩
          intro b hb hKb
          rcases List.mem_cons.mp hb with hb | hb
          · subst hb
            exact absurd hKb hc
          · exact hK1 b hb hKb

theorem sortFold_basic (tl : List Str) (fuel : Nat) : ∀ (ws : List Str)
    (st st' : SortSt), sortFold tl fuel ws st = some st' →
    (∀ n ∈ ws, n ∈ st'.seen) ∧ (∀ x ∈ st.seen, x ∈ st'.seen) ∧
    (∃ d, st'.out = st.out ++ d) ∧ (SIp st → SIp st') := by
  intro ws
  induction ws with
  | nil =>
    intro st st' h
    simp only [sortFold] at h
    injection h with h'
    subst h'
    exact ⟨by simp, fun x hx => hx, ⟨[], by simp⟩, id⟩
  | cons n rest ih =>
    intro st st' h
    simp only [sortFold] at h
    cases hr : addKey tl fuel n st with
    | none => rw [hr] at h; exact absurd h (by simp)
    | some st'' =>
      rw [hr] at h
      obtain ⟨⟨dA, houtA, -⟩, hmonoA, hnseen, hSIpA⟩ :=
        (addKey_basic tl fuel).1 n st st'' hr
      obtain ⟨hws, hmono, ⟨d, hout⟩, hSIp⟩ := ih st'' st' h
      refine ⟨?_, ?_, ⟨dA ++ d, by rw [hout, houtA]; simp⟩, fun hsi => hSIp (hSIpA hsi)⟩
      · intro m hm
        rcases List.mem_cons.mp hm with hm | hm
        · subst hm
          exact hmono m hnseen
        · exact hws m hm
      · intro x hx
        exact hmono x (hmonoA x hx)

/-- While `A` is unplaced, no proper descendant of `A` has been placed. -/
def subtreeUntouched (A : Str) (st : SortSt) : Prop :=
  A ∉ st.seen ∧ ∀ x, isChild A x = true → x ∉ st.seen

/-- `A` has been placed, with `B` after it and only descendants of `A` in
between. -/
def placedTogether (A B : Str) (st : SortSt) : Prop :=
  ∃ p q r, st.out = p ++ A :: (q ++ B :: r) ∧ ∀ c ∈ q, isChild A c = true

/-- The run invariant for the pair `A`, `B`. -/
def goodSt (A B : Str) (st : SortSt) : Prop :=
  SIp st ∧ (subtreeUntouched A st ∨ placedTogether A B st)

theorem placedTogether_extend {A B : Str} {st st' : SortSt}
    (hext : ∃ d, st'.out = st.out ++ d) (h : placedTogether A B st) :
    placedTogether A B st' := by
  obtain ⟨d, hd⟩ := hext
  obtain ⟨p, q, r, heq, hq⟩ := h
  exact ⟨p, q, r ++ d, by rw [hd, heq]; simp, hq⟩

theorem placedTogether_A_seen {A B : Str} {st : SortSt} (hsi : SIp st)
    (h : placedTogether A B st) : A ∈ st.seen := by
  obtain ⟨p, q, r, heq, -⟩ := h
  apply (hsi A).mpr
  rw [heq]
  simp

theorem untouched_back {A B : Str} {st st' : SortSt} (hg : goodSt A B st)
    (hsi' : SIp st') (hext : ∃ d, st'.out = st.out ++ d)
    (hd1' : subtreeUntouched A st') : subtreeUntouched A st := by
  rcases hg.2 with h | h
  · exact h
  · exact absurd (placedTogether_A_seen hsi' (placedTogether_extend hext h))
      hd1'.1

theorem goodRun (tl u v : List Str) (A B : Str)
    (htl : tl = u ++ A :: v) (hu : ∀ x ∈ u, isChild A x = false)
    (hB : B ∈ v) (hAB : isChild A B = true) : ∀ fuel : Nat,
    (∀ (K : Str) (st st' : SortSt), goodSt A B st →
      (subtreeUntouched A st → isChild A K = false) →
      addKey tl fuel K st = some st' → goodSt A B st') ∧
    (∀ (K : Str) (ns : List Str) (st st' : SortSt), goodSt A B st →
      K ∈ st.seen →
      (subtreeUntouched A st → isChild A K = false) →
      (subtreeUntouched A st → isChild K A = true →
        ∃ n1 n2, ns = n1 ++ A :: n2 ∧ ∀ x ∈ n1, isChild A x = false) →
      goChildren tl fuel K ns st = some st' → goodSt A B st') := by
  intro fuel
  induction fuel with
  | zero =>
    constructor
    · intro K st st' _ _ h
      exact absurd h (by simp [addKey])
    · intro K ns st st' _ _ _ _ h
      exact absurd h (by simp [goChildren])
  | succ f ih =>
    constructor
    · intro K st st' hg h2 h
      simp only [addKey] at h
      by_cases hseen : K ∈ st.seen
      · rw [if_pos hseen] at h
        injection h with h'
        subst h'
        exact hg
      · rw [if_neg hseen] at h
        rcases hg.2 with hd1 | hd2
        · by_cases hKA : K = A
          · subst hKA
            obtain ⟨⟨d, hout, hdall⟩, hmono, hK1, hSIpPres⟩ :=
              (addKey_basic tl f).2 K tl ⟨K :: st.seen, st.out ++ [K]⟩ st' h
            have hSIp1 : SIp ⟨K :: st.seen, st.out ++ [K]⟩ :=
              SIp_push K st hg.1
            have hSIp' : SIp st' := hSIpPres hSIp1
            have hBtl : B ∈ tl := by
              rw [htl]
              exact List.mem_append.mpr (Or.inr (List.mem_cons.mpr (Or.inr hB)))
            have hBseen : B ∈ st'.seen := hK1 B hBtl hAB
            have hBout : B ∈ st'.out := (hSIp' B).mp hBseen
            have hBnotst : B ∉ st.out := fun hc => (hd1.2 B hAB) ((hg.1 B).mpr hc)
            have hBneA : B ≠ K := isChild_ne hAB
            have hBd : B ∈ d := by
              rw [hout] at hBout
              rcases List.mem_append.mp hBout with hx | hx
              · rcases List.mem_append.mp hx with hx' | hx'
                · exact absurd hx' hBnotst
                · exact absurd (List.mem_singleton.mp hx') hBneA
              · exact hx
            obtain ⟨q, r, hd_split⟩ := List.append_of_mem hBd
            refine ⟨hSIp', Or.inr ⟨st.out, q, r, ?_, ?_⟩⟩
            · rw [hout, hd_split]
              simp
            · intro c hc
              exact hdall c (by rw [hd_split]; exact List.mem_append.mpr (Or.inl hc))
          · have hAK : isChild A K = false := h2 hd1
            have hg1 : goodSt A B ⟨K :: st.seen, st.out ++ [K]⟩ := by
              refine ⟨SIp_push K st hg.1, Or.inl ⟨?_, ?_⟩⟩
              · intro hc
                rcases List.mem_cons.mp hc with hc | hc
                · exact hKA hc.symm
                · exact hd1.1 hc
              · intro x hx hc
                rcases List.mem_cons.mp hc with hc | hc
                · subst hc
                  rw [hx] at hAK
                  exact absurd hAK (by simp)
                · exact (hd1.2 x hx) hc
            exact ih.2 K tl ⟨K :: st.seen, st.out ++ [K]⟩ st' hg1
              (List.mem_cons.mpr (Or.inl rfl)) (fun _ => h2 hd1)
              (fun _ _ => ⟨u, v, htl, hu⟩) h
        · have hplaced1 : placedTogether A B ⟨K :: st.seen, st.out ++ [K]⟩ :=
            placedTogether_extend ⟨[K], rfl⟩ hd2
          have hg1 : goodSt A B ⟨K :: st.seen, st.out ++ [K]⟩ :=
            ⟨SIp_push K st hg.1, Or.inr hplaced1⟩
          refine ih.2 K tl ⟨K :: st.seen, st.out ++ [K]⟩ st' hg1
            (List.mem_cons.mpr (Or.inl rfl)) ?_ ?_ h
          · intro hd1'
            exact absurd (placedTogether_A_seen hg1.1 hplaced1) hd1'.1
          · intro hd1' _
            exact absurd (placedTogether_A_seen hg1.1 hplaced1) hd1'.1
    · intro K ns st st' hg hKseen h2 h3 h
      cases ns with
      | nil =>
        simp only [goChildren] at h
        injection h with h'
        subst h'
        exact hg
      | cons n rest =>
        simp only [goChildren] at h
        by_cases hc : isChild K n = true
        · rw [if_pos hc] at h
          cases hr : addKey tl f n st with
          | none => rw [hr] at h; exact absurd h (by simp)
          | some st'' =>
            rw [hr] at h
            have h2n : subtreeUntouched A st → isChild A n = false := by
              intro hd1
              rw [← Bool.not_eq_true]
              intro hAn
              rcases isChild_comparable hc hAn with hKA | hKA | hKA
              · obtain ⟨n1, n2, hns, hn1⟩ := h3 hd1 hKA
                cases n1 with
                | nil =>
                  simp only [List.nil_append] at hns
                  injection hns with hnA hrest
                  rw [hnA, isChild_irrefl A] at hAn
                  exact absurd hAn (by simp)
                | cons m n1' =>
                  simp only [List.cons_append] at hns
                  injection hns with hnm hrest
                  have hfalse : isChild A n = false :=
                    hn1 n (List.mem_cons.mpr (Or.inl hnm))
                  rw [hfalse] at hAn
                  exact absurd hAn (by simp)
              · subst hKA
                exact hd1.1 hKseen
              · exact (hd1.2 K hKA) hKseen
            have hgood'' := ih.1 n st st'' hg h2n hr
            obtain ⟨⟨dA, houtA, -⟩, hmonoA, hnseen, -⟩ :=
              (addKey_basic tl f).1 n st st'' hr
            have hback : subtreeUntouched A st'' → subtreeUntouched A st :=
              untouched_back hg hgood''.1 ⟨dA, houtA⟩
            refine ih.2 K rest st'' st' hgood'' (hmonoA K hKseen)
              (fun hd1'' => h2 (hback hd1'')) ?_ h
            intro hd1'' hKA
            obtain ⟨n1, n2, hns, hn1⟩ := h3 (hback hd1'') hKA
            cases n1 with
            | nil =>
              simp only [List.nil_append] at hns
              injection hns with hnA hrest
              rw [hnA] at hnseen
              exact absurd hnseen hd1''.1
            | cons m n1' =>
              simp only [List.cons_append] at hns
              injection hns with hnm hrest
              exact ⟨n1', n2, hrest, fun x hx =>
                hn1 x (List.mem_cons.mpr (Or.inr hx))⟩
        · rw [if_neg hc] at h
          refine ih.2 K rest st st' hg hKseen h2 ?_ h
          intro hd1 hKA
          obtain ⟨n1, n2, hns, hn1⟩ := h3 hd1 hKA
          cases n1 with
          | nil =>
            simp only [List.nil_append] at hns
            injection hns with hnA hrest
            rw [← hnA] at hKA
            exact absurd hKA hc
          | cons m n1' =>
            simp only [List.cons_append] at hns
            injection hns with hnm hrest
            exact ⟨n1', n2, hrest, fun x hx =>
              hn1 x (List.mem_cons.mpr (Or.inr hx))⟩

theorem goodFold (tl u v : List Str) (A B : Str)
    (htl : tl = u ++ A :: v) (hu : ∀ x ∈ u, isChild A x = false)
    (hB : B ∈ v) (hAB : isChild A B = true) (fuel : Nat) :
    ∀ (ws : List Str) (st st' : SortSt), goodSt A B st →
    (subtreeUntouched A st →
      ∃ w1 w2, ws = w1 ++ A :: w2 ∧ ∀ x ∈ w1, isChild A x = false) →
    sortFold tl fuel ws st = some st' → goodSt A B st' := by
  intro ws
  induction ws with
  | nil =>
    intro st st' hg _ h
    simp only [sortFold] at h
    injection h with h'
    subst h'
    exact hg
  | cons n rest ih =>
    intro st st' hg hw h
    simp only [sortFold] at h
    cases hr : addKey tl fuel n st with
    | none => rw [hr] at h; exact absurd h (by simp)
    | some st'' =>
      rw [hr] at h
      have h2n : subtreeUntouched A st → isChild A n = false := by
        intro hd1
        obtain ⟨w1, w2, hws, hw1⟩ := hw hd1
        cases w1 with
        | nil =>
          simp only [List.nil_append] at hws
          injection hws with hnA hrest
          rw [hnA]
          exact isChild_irrefl A
        | cons m w1' =>
          simp only [List.cons_append] at hws
          injection hws with hnm hrest
          exact hw1 n (List.mem_cons.mpr (Or.inl hnm))
      have hgood'' := (goodRun tl u v A B htl hu hB hAB fuel).1 n st st'' hg h2n hr
      obtain ⟨⟨dA, houtA, -⟩, hmonoA, hnseen, -⟩ :=
        (addKey_basic tl fuel).1 n st st'' hr
      have hback : subtreeUntouched A st'' → subtreeUntouched A st :=
        untouched_back hg hgood''.1 ⟨dA, houtA⟩
      refine ih st'' st' hgood'' ?_ h
      intro hd1''
      obtain ⟨w1, w2, hws, hw1⟩ := hw (hback hd1'')
      cases w1 with
      | nil =>
        simp only [List.nil_append] at hws
        injection hws with hnA hrest
        rw [hnA] at hnseen
        exact absurd hnseen hd1''.1
      | cons m w1' =>
        simp only [List.cons_append] at hws
        injection hws with hnm hrest
        exact ⟨w1', w2, hrest, fun x hx => hw1 x (List.mem_cons.mpr (Or.inr hx))⟩

/-- `x` has been placed, with `y` somewhere after it in the output. -/
def pairPlaced (x y : Str) (st : SortSt) : Prop :=
  ∃ o1 o2, st.out = o1 ++ x :: o2 ∧ y ∈ o2

/-- The run invariant for sibling order: `y` is unplaced, or `x` was placed
before it. -/
def wGood (x y : Str) (st : SortSt) : Prop :=
  SIp st ∧ (y ∉ st.seen ∨ pairPlaced x y st)

theorem pairPlaced_extend {x y : Str} {st st' : SortSt}
    (hext : ∃ d, st'.out = st.out ++ d) (h : pairPlaced x y st) :
    pairPlaced x y st' := by
  obtain ⟨d, hd⟩ := hext
  obtain ⟨o1, o2, heq, hy⟩ := h
  exact ⟨o1, o2 ++ d, by rw [hd, heq]; simp,
    List.mem_append.mpr (Or.inl hy)⟩

theorem pairPlaced_y_seen {x y : Str} {st : SortSt} (hsi : SIp st)
    (h : pairPlaced x y st) : y ∈ st.seen := by
  obtain ⟨o1, o2, heq, hy⟩ := h
  apply (hsi y).mpr
  rw [heq]
  exact List.mem_append.mpr (Or.inr (List.mem_cons.mpr (Or.inr hy)))

/-- An ancestor (dotted prefix) of `y` is an initial segment of `y`. -/
theorem ancestor_take {K y : Str} (h : isChild K y = true) :
    K = y.take K.length ∧ K.length + 1 ≤ y.length := by
  have hp : K ++ toChars "." <+: y := List.isPrefixOf_iff_prefix.mp h
  have hK : K <+: y := (List.prefix_append K (toChars ".")).trans hp
  exact ⟨List.prefix_iff_eq_take.mp hK, isChild_length h⟩

theorem wRun (tl w1 w2 : List Str) (x y : Str)
    (htl : tl = w1 ++ x :: w2) (hyw1 : y ∉ w1) (hyw2 : y ∈ w2)
    (hxne : x ≠ y)
    (hxy : ∀ K, isChild K y = true → isChild K x = true) : ∀ fuel : Nat,
    (∀ (K : Str) (st st' : SortSt), wGood x y st →
      (y ∉ st.seen → K = y → x ∈ st.seen) →
      addKey tl fuel K st = some st' → wGood x y st') ∧
    (∀ (K : Str) (ns : List Str) (st st' : SortSt), wGood x y st →
      (y ∉ st.seen → isChild K y = true →
        (x ∈ st.seen ∨ ∃ m1 m2, ns = m1 ++ x :: m2 ∧ y ∉ m1 ∧ y ∈ m2)) →
      goChildren tl fuel K ns st = some st' → wGood x y st') := by
  intro fuel
  induction fuel with
  | zero =>
    constructor
    · intro K st st' _ _ h
      exact absurd h (by simp [addKey])
    · intro K ns st st' _ _ h
      exact absurd h (by simp [goChildren])
  | succ f ih =>
    constructor
    · intro K st st' hg hKy h
      simp only [addKey] at h
      by_cases hseen : K ∈ st.seen
      · rw [if_pos hseen] at h
        injection h with h'
        subst h'
        exact hg
      · rw [if_neg hseen] at h
        rcases hg.2 with hyun | hpl
        · by_cases hKyeq : K = y
          · have hx : x ∈ st.seen := hKy hyun hKyeq
            have hxout : x ∈ st.out := (hg.1 x).mp hx
            obtain ⟨o1, o2, hsplit⟩ := List.append_of_mem hxout
            have hpl1 : pairPlaced x y ⟨K :: st.seen, st.out ++ [K]⟩ := by
              refine ⟨o1, o2 ++ [K], ?_, ?_⟩
              · show st.out ++ [K] = o1 ++ x :: (o2 ++ [K])
                rw [hsplit]
                simp
              · rw [hKyeq]
                exact List.mem_append.mpr (Or.inr (List.mem_singleton.mpr rfl))
            have hg1 : wGood x y ⟨K :: st.seen, st.out ++ [K]⟩ :=
              ⟨SIp_push K st hg.1, Or.inr hpl1⟩
            refine ih.2 K tl ⟨K :: st.seen, st.out ++ [K]⟩ st' hg1 ?_ h
            intro hyun1 _
            exact absurd (List.mem_cons.mpr (Or.inl hKyeq.symm)) hyun1
          · have hg1 : wGood x y ⟨K :: st.seen, st.out ++ [K]⟩ := by
              refine ⟨SIp_push K st hg.1, Or.inl ?_⟩
              intro hc
              rcases List.mem_cons.mp hc with hc | hc
              · exact hKyeq hc.symm
              · exact hyun hc
            refine ih.2 K tl ⟨K :: st.seen, st.out ++ [K]⟩ st' hg1 ?_ h
            intro _ _
            exact Or.inr ⟨w1, w2, htl, hyw1, hyw2⟩
        · have hg1 : wGood x y ⟨K :: st.seen, st.out ++ [K]⟩ :=
            ⟨SIp_push K st hg.1, Or.inr (pairPlaced_extend ⟨[K], rfl⟩ hpl)⟩
          refine ih.2 K tl ⟨K :: st.seen, st.out ++ [K]⟩ st' hg1 ?_ h
          intro hyun1 _
          exact absurd
            (List.mem_cons.mpr (Or.inr (pairPlaced_y_seen hg.1 hpl))) hyun1
    · intro K ns st st' hg hcond h
      cases ns with
      | nil =>
        simp only [goChildren] at h
        injection h with h'
        subst h'
        exact hg
      | cons n rest =>
        simp only [goChildren] at h
        by_cases hc : isChild K n = true
        · rw [if_pos hc] at h
          cases hr : addKey tl f n st with
          | none => rw [hr] at h; exact absurd h (by simp)
          | some st'' =>
            rw [hr] at h
            have hKy_n : y ∉ st.seen → n = y → x ∈ st.seen := by
              intro hyun hny
              have hKy : isChild K y = true := by rw [← hny]; exact hc
              rcases hcond hyun hKy with hx | ⟨m1, m2, hns, hym1, hym2⟩
              · exact hx
              · cases m1 with
                | nil =>
                  simp only [List.nil_append] at hns
                  injection hns with h1 h2
                  exact absurd (h1.symm.trans hny) hxne
                | cons m m1' =>
                  simp only [List.cons_append] at hns
                  injection hns with h1 h2
                  exact absurd
                    (List.mem_cons.mpr (Or.inl (hny.symm.trans h1))) hym1
            have hgood'' := ih.1 n st st'' hg hKy_n hr
            obtain ⟨⟨dA, houtA, -⟩, hmonoA, hnseen, -⟩ :=
              (addKey_basic tl f).1 n st st'' hr
            refine ih.2 K rest st'' st' hgood'' ?_ h
            intro hyun'' hKy
            have hyun : y ∉ st.seen := fun hc' => hyun'' (hmonoA y hc')
            rcases hcond hyun hKy with hx | ⟨m1, m2, hns, hym1, hym2⟩
            · exact Or.inl (hmonoA x hx)
            · cases m1 with
              | nil =>
                simp only [List.nil_append] at hns
                injection hns with h1 h2
                exact Or.inl (h1 ▸ hnseen)
              | cons m m1' =>
                simp only [List.cons_append] at hns
                injection hns with h1 h2
                refine Or.inr ⟨m1', m2, h2, ?_, hym2⟩
                intro hc'
                exact hym1 (List.mem_cons.mpr (Or.inr hc'))
        · rw [if_neg hc] at h
          refine ih.2 K rest st st' hg ?_ h
          intro hyun hKy
          rcases hcond hyun hKy with hx | ⟨m1, m2, hns, hym1, hym2⟩
          · exact Or.inl hx
          · cases m1 with
            | nil =>
              simp only [List.nil_append] at hns
              injection hns with h1 h2
              have hx' := hxy K hKy
              rw [← h1] at hx'
              exact absurd hx' hc
            | cons m m1' =>
              simp only [List.cons_append] at hns
              injection hns with h1 h2
              refine Or.inr ⟨m1', m2, h2, ?_, hym2⟩
              intro hc'
              exact hym1 (List.mem_cons.mpr (Or.inr hc'))

theorem wFold (tl w1 w2 : List Str) (x y : Str)
    (htl : tl = w1 ++ x :: w2) (hyw1 : y ∉ w1) (hyw2 : y ∈ w2)
    (hxne : x ≠ y)
    (hxy : ∀ K, isChild K y = true → isChild K x = true) (fuel : Nat) :
    ∀ (ws : List Str) (st st' : SortSt), wGood x y st →
    (y ∉ st.seen →
      (x ∈ st.seen ∨ ∃ m1 m2, ws = m1 ++ x :: m2 ∧ y ∉ m1 ∧ y ∈ m2)) →
    sortFold tl fuel ws st = some st' → wGood x y st' := by
  intro ws
  induction ws with
  | nil =>
    intro st st' hg _ h
    simp only [sortFold] at h
    injection h with h'
    subst h'
    exact hg
  | cons n rest ih =>
    intro st st' hg hw h
    simp only [sortFold] at h
    cases hr : addKey tl fuel n st with
    | none => rw [hr] at h; exact absurd h (by simp)
    | some st'' =>
      rw [hr] at h
      have hKy_n : y ∉ st.seen → n = y → x ∈ st.seen := by
        intro hyun hny
        rcases hw hyun with hx | ⟨m1, m2, hns, hym1, hym2⟩
        · exact hx
        · cases m1 with
          | nil =>
            simp only [List.nil_append] at hns
            injection hns with h1 h2
            exact absurd (h1.symm.trans hny) hxne
          | cons m m1' =>
            simp only [List.cons_append] at hns
            injection hns with h1 h2
            exact absurd (List.mem_cons.mpr (Or.inl (hny.symm.trans h1))) hym1
      have hgood'' := (wRun tl w1 w2 x y htl hyw1 hyw2 hxne hxy fuel).1
        n st st'' hg hKy_n hr
      obtain ⟨⟨dA, houtA, -⟩, hmonoA, hnseen, -⟩ :=
        (addKey_basic tl fuel).1 n st st'' hr
      refine ih st'' st' hgood'' ?_ h
      intro hyun''
      have hyun : y ∉ st.seen := fun hc' => hyun'' (hmonoA y hc')
      rcases hw hyun with hx | ⟨m1, m2, hns, hym1, hym2⟩
      · exact Or.inl (hmonoA x hx)
      · cases m1 with
        | nil =>
          simp only [List.nil_append] at hns
          injection hns with h1 h2
          exact Or.inl (h1 ▸ hnseen)
        | cons m m1' =>
          simp only [List.cons_append] at hns
          injection hns with h1 h2
          refine Or.inr ⟨m1', m2, h2, ?_, hym2⟩
          intro hc'
          exact hym1 (List.mem_cons.mpr (Or.inr hc'))

/-- C7 (counterexample): with the input list `["a.b", "a"]` the hierarchical
sort returns `["a.b", "a"]` — the declaration order is *not* irrelevant:
when the child name appears first, it is placed before its parent, so no
decomposition places `a.b` after `a`. -/
theorem c7_counterexample :
    sortTypes 20 [toChars "a.b", toChars "a"] =
      some [toChars "a.b", toChars "a"] ∧
    isChild (toChars "a") (toChars "a.b") = true ∧
    ¬ ∃ p q r, [toChars "a.b", toChars "a"] =
        p ++ toChars "a" :: (q ++ toChars "a.b" :: r) ∧
        ∀ c ∈ q, isChild (toChars "a") c = true := by
  refine ⟨rfl, by decide, ?_⟩
  rintro ⟨p, q, r, heq, -⟩
  have hlen := congrArg List.length heq
  simp only [List.length_append, List.length_cons, List.length_nil] at hlen
  have hp : p = [] := List.eq_nil_of_length_eq_zero (by omega)
  have hq : q = [] := List.eq_nil_of_length_eq_zero (by omega)
  have hr : r = [] := List.eq_nil_of_length_eq_zero (by omega)
  subst hp; subst hq; subst hr
  simp only [List.nil_append] at heq
  exact absurd heq (by decide)

/-- C7 (amended): provided no descendant of `A` occurs before `A` in the type
list, the hierarchical sort places every descendant `B` listed after `A`
after `A` and before any name that is not `A` or a dotted-prefix descendant
of `A` placed in that group; and sibling order follows first appearance in
the input list: a name `x` listed before a name `y` all of whose dotted-prefix
ancestors are also ancestors of `x` (in particular two siblings under the
same parent, or two top-level names) is placed before `y`. -/
theorem c7_grouping (tl : List Str) (fuel : Nat) (out : List Str)
    (hrun : sortTypes fuel tl = some out) :
    (∀ (u v : List Str) (A B : Str), tl = u ++ A :: v →
      (∀ z ∈ u, isChild A z = false) → B ∈ v → isChild A B = true →
      ∃ p q r, out = p ++ A :: (q ++ B :: r) ∧ ∀ c ∈ q, isChild A c = true) ∧
    (∀ (w1 w2 : List Str) (x y : Str), tl = w1 ++ x :: w2 → x ≠ y →
      y ∉ w1 → y ∈ w2 → (∀ K, isChild K y = true → isChild K x = true) →
      ∃ o1 o2, out = o1 ++ x :: o2 ∧ y ∈ o2) := by
  unfold sortTypes at hrun
  cases hf : sortFold tl fuel tl ⟨[], []⟩ with
  | none => rw [hf] at hrun; exact absurd hrun (by simp)
  | some stF =>
    rw [hf] at hrun
    simp only [Option.map_some'] at hrun
    injection hrun with hout
    constructor
    · intro u v A B htl hu hB hAB
      have hinit : goodSt A B ⟨[], []⟩ := by
        refine ⟨fun z => ?_, Or.inl ⟨by simp, fun z _ => by simp⟩⟩
        constructor <;> intro hz <;> simp at hz
      have hgF := goodFold tl u v A B htl hu hB hAB fuel tl ⟨[], []⟩ stF hinit
        (fun _ => ⟨u, v, htl, hu⟩) hf
      have hAseen : A ∈ stF.seen :=
        ((sortFold_basic tl fuel tl ⟨[], []⟩ stF hf).1) A
          (by rw [htl]
              exact List.mem_append.mpr (Or.inr (List.mem_cons.mpr (Or.inl rfl))))
      rcases hgF.2 with hd1 | hd2
      · exact absurd hAseen hd1.1
      · rw [← hout]
        exact hd2
    · intro w1 w2 x y htl hxne hyw1 hyw2 hxy
      have hinit : wGood x y ⟨[], []⟩ := by
        refine ⟨fun z => ?_, Or.inl (by simp)⟩
        constructor <;> intro hz <;> simp at hz
      have hgF := wFold tl w1 w2 x y htl hyw1 hyw2 hxne hxy fuel tl ⟨[], []⟩
        stF hinit (fun _ => Or.inr ⟨w1, w2, htl, hyw1, hyw2⟩) hf
      have hyseen : y ∈ stF.seen :=
        ((sortFold_basic tl fuel tl ⟨[], []⟩ stF hf).1) y
          (by rw [htl]
              exact List.mem_append.mpr (Or.inr (List.mem_cons.mpr (Or.inr hyw2))))
      rcases hgF.2 with hyun | hpl
      · exact absurd hyseen hyun
      · obtain ⟨o1, o2, heq, hy⟩ := hpl
        exact ⟨o1, o2, by rw [← hout]; exact heq, hy⟩

/-- C7 (witness for the amended theorem): for the input `["a", "a.b", "b"]`
the sort yields `["a", "a.b", "b"]`; the theorem gives both the grouping of
`a.b` after `a` and the sibling order of `a` before `b`. -/
theorem c7_witness :
    (∃ p q r, [toChars "a", toChars "a.b", toChars "b"] =
      p ++ toChars "a" :: (q ++ toChars "a.b" :: r) ∧
      ∀ c ∈ q, isChild (toChars "a") c = true) ∧
    (∃ o1 o2, [toChars "a", toChars "a.b", toChars "b"] =
      o1 ++ toChars "a" :: o2 ∧ toChars "b" ∈ o2) := by
  have h := c7_grouping [toChars "a", toChars "a.b", toChars "b"] 20
    [toChars "a", toChars "a.b", toChars "b"] rfl
  constructor
  · exact h.1 [] [toChars "a.b", toChars "b"] (toChars "a") (toChars "a.b")
      rfl (by intro z hz; simp at hz) (by decide) (by decide)
  · refine h.2 [] [toChars "a.b", toChars "b"] (toChars "a") (toChars "b")
      rfl (by decide) (by simp) (by decide) ?_
    intro K hK
    obtain ⟨hKeq, hKlen⟩ := ancestor_take hK
    have h0 : K.length = 0 := by
      have hb : (toChars "b").length = 1 := rfl
      omega
    rw [hKeq, h0] at hK
    exact absurd hK (by decide)
